import Mathlib

/-!
# Verification of the `AsyncRateLimiter` admission core (`src/challenges/challenge_6.py`)

Shallow embedding of the sliding-window rate limiter. Timestamps returned by
`time.time()` are modelled as rationals, `max_calls` as an integer and the
call log as a list of rationals (newest last, as `append` produces).

Concurrency model: in the source, the whole body of `acquire()` — including the
`await asyncio.sleep(wait_time)` — runs inside `async with self._lock`, so the
lock serialises complete `acquire()` bodies. A concurrent execution is therefore
a sequence of atomic `acquire` (or cancelled-`acquire`) steps with monotone
clock readings; `asyncio.sleep(d)` guarantees the clock reading after the sleep
is at least the reading before it plus `d`.
-/

/-- State of one `AsyncRateLimiter` object: the two constructor parameters and
the mutable timestamp list `self.calls`. -/
structure AsyncRateLimiter where
  max_calls : Int
  time_period : Rat
  calls : List Rat
deriving Repr, DecidableEq

/-- Error taxonomy of the constructor named by the specification. The source
constructor raises nothing, so no code path produces this value. -/
inductive InitError where
  | invalidConfiguration
deriving Repr, DecidableEq

/-- Constructor `AsyncRateLimiter.__init__`: stores `max_calls` and `time_period` unchanged
and sets `self.calls = []`. The source performs no validation and cannot raise,
so the result is always `.ok`; the `Except` type records that a Python
constructor could in principle fail. -/
def AsyncRateLimiter.init (max_calls : Int) (time_period : Rat) :
    Except InitError AsyncRateLimiter :=
  .ok { max_calls := max_calls, time_period := time_period, calls := [] }

/-- The prune list comprehension of `acquire()` (lines 28-29 and 40-41):
`[timestamp for timestamp in calls if timestamp > now - time_period]`. -/
def pruneCalls (time_period now : Rat) (calls : List Rat) : List Rat :=
  calls.filter (fun timestamp => decide (now - time_period < timestamp))

/-- Outcome of one completed `acquire()` call: the updated limiter state, the
timestamp appended at line 44 (the value of `now` at that moment, which is also
the instant the call returns), and the `wait_time` passed to `asyncio.sleep`
when the call suspended (`none` when it returned without sleeping). -/
structure AcquireResult where
  state : AsyncRateLimiter
  admitted_at : Rat
  slept : Option Rat
deriving Repr, DecidableEq

/-- Function `AsyncRateLimiter.acquire` (lines 19-44), as a function of the limiter
state and the two possible `time.time()` readings: `now₁` at line 25 and `now₂`
at line 39 (read only if the call sleeps). Branches, in source order:

* after pruning at `now₁`, if `len(self.calls) >= self.max_calls` the code reads
  `self.calls[0]`; on an empty list this raises `IndexError`, modelled as
  `none`;
* if `wait_time = oldest_call + time_period - now₁ > 0` the call sleeps,
  re-reads the clock (`now₂`), prunes again and appends `now₂`;
* otherwise (and in the not-full branch) it appends `now₁` without sleeping. -/
def AsyncRateLimiter.acquire (rl : AsyncRateLimiter) (now₁ now₂ : Rat) :
    Option AcquireResult :=
  if rl.max_calls ≤ ((pruneCalls rl.time_period now₁ rl.calls).length : Int) then
    match (pruneCalls rl.time_period now₁ rl.calls).head? with
    | none => none
    | some oldest_call =>
      if 0 < oldest_call + rl.time_period - now₁ then
        some ⟨⟨rl.max_calls, rl.time_period,
          pruneCalls rl.time_period now₂ (pruneCalls rl.time_period now₁ rl.calls)
            ++ [now₂]⟩, now₂, some (oldest_call + rl.time_period - now₁)⟩
      else
        some ⟨⟨rl.max_calls, rl.time_period,
          pruneCalls rl.time_period now₁ rl.calls ++ [now₁]⟩, now₁, none⟩
  else
    some ⟨⟨rl.max_calls, rl.time_period,
      pruneCalls rl.time_period now₁ rl.calls ++ [now₁]⟩, now₁, none⟩

/-- The `wait_time` that `acquire` would pass to `asyncio.sleep` from state
`rl` at clock reading `now₁`, if any: `some` exactly when the sleep branch is
reached. -/
def AsyncRateLimiter.plannedWait (rl : AsyncRateLimiter) (now₁ : Rat) : Option Rat :=
  if rl.max_calls ≤ ((pruneCalls rl.time_period now₁ rl.calls).length : Int) then
    match (pruneCalls rl.time_period now₁ rl.calls).head? with
    | none => none
    | some oldest_call =>
      if 0 < oldest_call + rl.time_period - now₁ then
        some (oldest_call + rl.time_period - now₁)
      else
        none
  else
    none

/-- State left behind by an `acquire()` call that is cancelled while suspended
in `asyncio.sleep`. The suspension point is reached only in the sleep branch;
there the prune at line 28 has already replaced `self.calls`, the append at
line 44 has not run, and `CancelledError` propagates out of the `async with`
block. `none` when the call never suspends (no cancellation-while-suspended
scenario exists). -/
def AsyncRateLimiter.acquireCancelled (rl : AsyncRateLimiter) (now₁ : Rat) :
    Option AsyncRateLimiter :=
  if rl.max_calls ≤ ((pruneCalls rl.time_period now₁ rl.calls).length : Int) then
    match (pruneCalls rl.time_period now₁ rl.calls).head? with
    | none => none
    | some oldest_call =>
      if 0 < oldest_call + rl.time_period - now₁ then
        some ⟨rl.max_calls, rl.time_period, pruneCalls rl.time_period now₁ rl.calls⟩
      else
        none
  else
    none

/-- Observable events of one `acquire()` execution, used to state lock and
suspension ordering properties. -/
inductive Event where
  | lockAcquire
  | lockRelease
  | readClock (t : Rat)
  | setCalls (calls : List Rat)
  | sleep (duration : Rat)
  | cancelled
deriving Repr, DecidableEq

/-- Event trace of one completed (or `IndexError`-raising) `acquire()` call.
`async with self._lock` emits `lockAcquire` on entry and `lockRelease` on exit,
including exceptional exit; every other event happens between the two because
the whole body is inside the `with` block. -/
def AsyncRateLimiter.acquireTrace (rl : AsyncRateLimiter) (now₁ now₂ : Rat) :
    List Event :=
  if rl.max_calls ≤ ((pruneCalls rl.time_period now₁ rl.calls).length : Int) then
    match (pruneCalls rl.time_period now₁ rl.calls).head? with
    | none =>
      [Event.lockAcquire, Event.readClock now₁,
       Event.setCalls (pruneCalls rl.time_period now₁ rl.calls), Event.lockRelease]
    | some oldest_call =>
      if 0 < oldest_call + rl.time_period - now₁ then
        [Event.lockAcquire, Event.readClock now₁,
         Event.setCalls (pruneCalls rl.time_period now₁ rl.calls),
         Event.sleep (oldest_call + rl.time_period - now₁),
         Event.readClock now₂,
         Event.setCalls (pruneCalls rl.time_period now₂
           (pruneCalls rl.time_period now₁ rl.calls)),
         Event.setCalls (pruneCalls rl.time_period now₂
           (pruneCalls rl.time_period now₁ rl.calls) ++ [now₂]),
         Event.lockRelease]
      else
        [Event.lockAcquire, Event.readClock now₁,
         Event.setCalls (pruneCalls rl.time_period now₁ rl.calls),
         Event.setCalls (pruneCalls rl.time_period now₁ rl.calls ++ [now₁]),
         Event.lockRelease]
  else
    [Event.lockAcquire, Event.readClock now₁,
     Event.setCalls (pruneCalls rl.time_period now₁ rl.calls),
     Event.setCalls (pruneCalls rl.time_period now₁ rl.calls ++ [now₁]),
     Event.lockRelease]

/-- Event trace of an `acquire()` call cancelled while suspended in
`asyncio.sleep`: defined exactly when `acquireCancelled` is. The `async with`
block emits `lockRelease` while the `CancelledError` propagates. -/
def AsyncRateLimiter.acquireCancelledTrace (rl : AsyncRateLimiter) (now₁ : Rat) :
    Option (List Event) :=
  if rl.max_calls ≤ ((pruneCalls rl.time_period now₁ rl.calls).length : Int) then
    match (pruneCalls rl.time_period now₁ rl.calls).head? with
    | none => none
    | some oldest_call =>
      if 0 < oldest_call + rl.time_period - now₁ then
        some [Event.lockAcquire, Event.readClock now₁,
          Event.setCalls (pruneCalls rl.time_period now₁ rl.calls),
          Event.sleep (oldest_call + rl.time_period - now₁),
          Event.cancelled, Event.lockRelease]
      else
        none
  else
    none

/-- Number of `sleep` events of a trace that occur while the lock is held,
scanning with the current lock depth as accumulator. -/
def lockedSleeps : Nat → List Event → Nat
  | _, [] => 0
  | d, Event.lockAcquire :: rest => lockedSleeps (d + 1) rest
  | d, Event.lockRelease :: rest => lockedSleeps (d - 1) rest
  | d, Event.sleep _ :: rest => (if 0 < d then 1 else 0) + lockedSleeps d rest
  | d, _ :: rest => lockedSleeps d rest

/-- Number of `sleep` events of a trace that occur while the lock is free. -/
def unlockedSleeps : Nat → List Event → Nat
  | _, [] => 0
  | d, Event.lockAcquire :: rest => unlockedSleeps (d + 1) rest
  | d, Event.lockRelease :: rest => unlockedSleeps (d - 1) rest
  | d, Event.sleep _ :: rest => (if d = 0 then 1 else 0) + unlockedSleeps d rest
  | d, _ :: rest => unlockedSleeps d rest

/-- Lock depth after executing a whole trace, starting from the given depth. -/
def endLockDepth : Nat → List Event → Nat
  | d, [] => d
  | d, Event.lockAcquire :: rest => endLockDepth (d + 1) rest
  | d, Event.lockRelease :: rest => endLockDepth (d - 1) rest
  | d, _ :: rest => endLockDepth d rest

/-- Number of timestamps of `call_log` lying in the trailing window
`(t - time_period, t]`, the quantity bounded by the specification (§3, §8). -/
def windowCount (rl : AsyncRateLimiter) (t : Rat) : Nat :=
  (rl.calls.filter (fun s =>
    decide (t - rl.time_period < s) && decide (s ≤ t))).length

/-- Assumption on `asyncio.sleep(wait_time)`: it suspends for at least `wait_time`: whenever the
call from `rl` at reading `now₁` sleeps, the reading `now₂` taken on waking is
at least `now₁` plus the planned wait. -/
def sleepRespected (rl : AsyncRateLimiter) (now₁ now₂ : Rat) : Prop :=
  ∀ w, rl.plannedWait now₁ = some w → now₁ + w ≤ now₂

/-- States of one limiter object reachable in a concurrent execution, paired
with the clock reading of the last completed step. The lock serialises whole
`acquire()` bodies (the sleep included), so an execution is a sequence of
atomic completed or cancelled `acquire` steps; `time.time()` readings never
decrease across and inside steps, and sleeps last at least the requested
duration. -/
inductive Reachable : AsyncRateLimiter → Rat → Prop where
  | init (max_calls : Int) (time_period : Rat) (rl : AsyncRateLimiter) (t₀ : Rat)
      (h : AsyncRateLimiter.init max_calls time_period = .ok rl) :
      Reachable rl t₀
  | acquireStep (rl : AsyncRateLimiter) (t now₁ now₂ : Rat) (res : AcquireResult)
      (hr : Reachable rl t) (h₁ : t ≤ now₁) (h₂ : now₁ ≤ now₂)
      (hs : sleepRespected rl now₁ now₂)
      (ha : rl.acquire now₁ now₂ = some res) :
      Reachable res.state res.admitted_at
  | cancelStep (rl : AsyncRateLimiter) (t now₁ : Rat) (rl' : AsyncRateLimiter)
      (hr : Reachable rl t) (h₁ : t ≤ now₁)
      (hc : rl.acquireCancelled now₁ = some rl') :
      Reachable rl' now₁

/-- Inductive invariant of reachable states at clock reading `t`: every logged
timestamp is in the past, the log is sorted oldest-first, a nonempty log means
the quota is at least one, and the log never holds more than `max_calls`
entries (or zero entries for a non-positive quota). -/
def LimiterInv (rl : AsyncRateLimiter) (t : Rat) : Prop :=
  (∀ s ∈ rl.calls, s ≤ t) ∧
  rl.calls.Sorted (· ≤ ·) ∧
  (rl.calls ≠ [] → 1 ≤ rl.max_calls) ∧
  (rl.calls.length : Int) ≤ max rl.max_calls 0

/-! ## Structural lemmas about pruning and acquire -/

theorem pruneCalls_sublist (time_period now : Rat) (calls : List Rat) :
    (pruneCalls time_period now calls).Sublist calls :=
  List.filter_sublist calls

theorem pruneCalls_length_le (time_period now : Rat) (calls : List Rat) :
    (pruneCalls time_period now calls).length ≤ calls.length :=
  (pruneCalls_sublist time_period now calls).length_le

theorem mem_pruneCalls {time_period now : Rat} {calls : List Rat} {s : Rat} :
    s ∈ pruneCalls time_period now calls ↔ s ∈ calls ∧ now - time_period < s := by
  simp [pruneCalls, List.mem_filter]

theorem pruneCalls_sorted {calls : List Rat} (time_period now : Rat)
    (h : calls.Sorted (· ≤ ·)) : (pruneCalls time_period now calls).Sorted (· ≤ ·) :=
  h.filter _

/-- A prune that does not shorten the list keeps it unchanged. -/
theorem pruneCalls_eq_of_length {time_period now : Rat} {calls : List Rat}
    (h : (pruneCalls time_period now calls).length = calls.length) :
    pruneCalls time_period now calls = calls := by
  unfold pruneCalls at *
  rw [List.filter_length_eq_length] at h
  exact List.filter_eq_self.mpr h

/-- Sorted append of a new maximal element stays sorted. -/
theorem sorted_append_singleton {calls : List Rat} {a : Rat}
    (h : calls.Sorted (· ≤ ·)) (ha : ∀ x ∈ calls, x ≤ a) :
    (calls ++ [a]).Sorted (· ≤ ·) := by
  rw [List.Sorted, List.pairwise_append]
  refine ⟨h, List.pairwise_singleton _ _, fun x hx b hb => ?_⟩
  rw [List.mem_singleton] at hb
  exact hb ▸ ha x hx

/-- Every completed `acquire()` runs one of exactly two code paths: the
not-full path, appending `now₁` to the once-pruned log without sleeping, or
the full path, which always finds a strictly positive `wait_time` (the head of
the pruned log survived the prune, so `now₁ - time_period < oldest`), sleeps,
prunes again and appends `now₂`. The fall-through of the full branch with
`wait_time <= 0` never runs. -/
theorem acquire_cases (rl : AsyncRateLimiter) (now₁ now₂ : Rat) (res : AcquireResult)
    (h : rl.acquire now₁ now₂ = some res) :
    (¬ rl.max_calls ≤ ((pruneCalls rl.time_period now₁ rl.calls).length : Int) ∧
      res = ⟨⟨rl.max_calls, rl.time_period,
        pruneCalls rl.time_period now₁ rl.calls ++ [now₁]⟩, now₁, none⟩) ∨
    (∃ oldest rest,
      rl.max_calls ≤ ((pruneCalls rl.time_period now₁ rl.calls).length : Int) ∧
      pruneCalls rl.time_period now₁ rl.calls = oldest :: rest ∧
      0 < oldest + rl.time_period - now₁ ∧
      res = ⟨⟨rl.max_calls, rl.time_period,
        pruneCalls rl.time_period now₂ (pruneCalls rl.time_period now₁ rl.calls)
          ++ [now₂]⟩, now₂, some (oldest + rl.time_period - now₁)⟩) := by
  unfold AsyncRateLimiter.acquire at h
  by_cases hfull : rl.max_calls ≤ ((pruneCalls rl.time_period now₁ rl.calls).length : Int)
  · rw [if_pos hfull] at h
    cases hl : pruneCalls rl.time_period now₁ rl.calls with
    | nil =>
      rw [hl] at h
      simp at h
    | cons oldest rest =>
      rw [hl] at h
      simp only [List.head?_cons] at h
      have hmem : oldest ∈ pruneCalls rl.time_period now₁ rl.calls := by
        rw [hl]; exact List.mem_cons_self _ _
      have hlt : now₁ - rl.time_period < oldest := (mem_pruneCalls.mp hmem).2
      have hpos : 0 < oldest + rl.time_period - now₁ := by linarith
      rw [if_pos hpos] at h
      exact Or.inr ⟨oldest, rest, hl ▸ hfull, rfl, hpos, (Option.some.inj h).symm⟩
  · rw [if_neg hfull] at h
    exact Or.inl ⟨hfull, (Option.some.inj h).symm⟩

/-- In the sleep branch, `plannedWait` returns exactly the `wait_time`
computed at line 34. -/
theorem plannedWait_some (rl : AsyncRateLimiter) (now₁ : Rat) (oldest : Rat)
    (rest : List Rat)
    (hfull : rl.max_calls ≤ ((pruneCalls rl.time_period now₁ rl.calls).length : Int))
    (hl : pruneCalls rl.time_period now₁ rl.calls = oldest :: rest) :
    rl.plannedWait now₁ = some (oldest + rl.time_period - now₁) := by
  have hmem : oldest ∈ pruneCalls rl.time_period now₁ rl.calls := by
    rw [hl]; exact List.mem_cons_self _ _
  have hlt : now₁ - rl.time_period < oldest := (mem_pruneCalls.mp hmem).2
  have hpos : 0 < oldest + rl.time_period - now₁ := by linarith
  unfold AsyncRateLimiter.plannedWait
  rw [if_pos hfull, hl]
  simp only [List.head?_cons]
  rw [if_pos hpos]

/-- Inversion for a cancellation while suspended: it happens only in the sleep
branch, and leaves the once-pruned log with nothing appended. -/
theorem acquireCancelled_cases (rl : AsyncRateLimiter) (now₁ : Rat)
    (rl' : AsyncRateLimiter) (h : rl.acquireCancelled now₁ = some rl') :
    ∃ oldest rest,
      rl.max_calls ≤ ((pruneCalls rl.time_period now₁ rl.calls).length : Int) ∧
      pruneCalls rl.time_period now₁ rl.calls = oldest :: rest ∧
      0 < oldest + rl.time_period - now₁ ∧
      rl' = ⟨rl.max_calls, rl.time_period, pruneCalls rl.time_period now₁ rl.calls⟩ := by
  unfold AsyncRateLimiter.acquireCancelled at h
  by_cases hfull : rl.max_calls ≤ ((pruneCalls rl.time_period now₁ rl.calls).length : Int)
  · rw [if_pos hfull] at h
    cases hl : pruneCalls rl.time_period now₁ rl.calls with
    | nil =>
      rw [hl] at h
      simp at h
    | cons oldest rest =>
      rw [hl] at h
      simp only [List.head?_cons] at h
      have hmem : oldest ∈ pruneCalls rl.time_period now₁ rl.calls := by
        rw [hl]; exact List.mem_cons_self _ _
      have hlt : now₁ - rl.time_period < oldest := (mem_pruneCalls.mp hmem).2
      have hpos : 0 < oldest + rl.time_period - now₁ := by linarith
      rw [if_pos hpos] at h
      exact ⟨oldest, rest, hl ▸ hfull, rfl, hpos, (Option.some.inj h).symm⟩
  · rw [if_neg hfull] at h
    simp at h

/-- One completed `acquire()` step preserves the state invariant, evaluated at
the instant the call returns. -/
theorem acquire_limiterInv (rl : AsyncRateLimiter) (t now₁ now₂ : Rat)
    (res : AcquireResult) (hinv : LimiterInv rl t) (h₁ : t ≤ now₁) (h₂ : now₁ ≤ now₂)
    (hs : sleepRespected rl now₁ now₂) (ha : rl.acquire now₁ now₂ = some res) :
    LimiterInv res.state res.admitted_at := by
  obtain ⟨hub, hsort, hne, hlen⟩ := hinv
  rcases acquire_cases rl now₁ now₂ res ha with
    ⟨hnotfull, hres⟩ | ⟨oldest, rest, hfull, hl, hpos, hres⟩
  · subst hres
    simp only [LimiterInv]
    refine ⟨?_, ?_, ?_, ?_⟩
    · intro s hsmem
      rcases List.mem_append.mp hsmem with hs' | hs'
      · exact le_trans (hub s (mem_pruneCalls.mp hs').1) h₁
      · rw [List.mem_singleton] at hs'
        exact le_of_eq hs'
    · exact sorted_append_singleton (pruneCalls_sorted _ _ hsort)
        (fun x hx => le_trans (hub x (mem_pruneCalls.mp hx).1) h₁)
    · intro _
      have h0 : (0:Int) ≤ ((pruneCalls rl.time_period now₁ rl.calls).length : Int) :=
        Int.ofNat_nonneg _
      omega
    · have hlen2 : (pruneCalls rl.time_period now₁ rl.calls ++ [now₁]).length
          = (pruneCalls rl.time_period now₁ rl.calls).length + 1 := by simp
      rw [hlen2]
      have hstep : ((pruneCalls rl.time_period now₁ rl.calls).length : Int) + 1
          ≤ rl.max_calls := by omega
      push_cast
      exact hstep.trans (le_max_left _ _)
  · subst hres
    simp only [LimiterInv]
    have hw : rl.plannedWait now₁ = some (oldest + rl.time_period - now₁) :=
      plannedWait_some rl now₁ oldest rest hfull hl
    have hn₂ : now₁ + (oldest + rl.time_period - now₁) ≤ now₂ := hs _ hw
    have holdle : oldest ≤ now₂ - rl.time_period := by linarith
    have hp2 : pruneCalls rl.time_period now₂ (pruneCalls rl.time_period now₁ rl.calls)
        = pruneCalls rl.time_period now₂ rest := by
      rw [hl]
      unfold pruneCalls
      rw [List.filter_cons, if_neg]
      simp only [decide_eq_true_eq]
      exact not_lt.mpr holdle
    have hcne : rl.calls ≠ [] := by
      intro hc
      rw [hc] at hl
      simp [pruneCalls] at hl
    have hmc : 1 ≤ rl.max_calls := hne hcne
    have hmax : max rl.max_calls 0 = rl.max_calls :=
      max_eq_left (le_trans zero_le_one hmc)
    refine ⟨?_, ?_, ?_, ?_⟩
    · intro s hsmem
      rcases List.mem_append.mp hsmem with hs' | hs'
      · have hsmem2 : s ∈ pruneCalls rl.time_period now₁ rl.calls :=
          (mem_pruneCalls.mp hs').1
        exact le_trans (le_trans (hub s (mem_pruneCalls.mp hsmem2).1) h₁) h₂
      · rw [List.mem_singleton] at hs'
        exact le_of_eq hs'
    · refine sorted_append_singleton
        (pruneCalls_sorted _ _ (pruneCalls_sorted _ _ hsort)) (fun x hx => ?_)
      have hx' : x ∈ pruneCalls rl.time_period now₁ rl.calls :=
        (mem_pruneCalls.mp hx).1
      exact le_trans (le_trans (hub x (mem_pruneCalls.mp hx').1) h₁) h₂
    · intro _
      exact hmc
    · have e1 : (pruneCalls rl.time_period now₂
          (pruneCalls rl.time_period now₁ rl.calls)).length
          ≤ rest.length := by
        rw [hp2]
        exact pruneCalls_length_le _ _ _
      have e2 : (pruneCalls rl.time_period now₁ rl.calls).length = rest.length + 1 := by
        rw [hl]; simp
      have e3 : (pruneCalls rl.time_period now₁ rl.calls).length ≤ rl.calls.length :=
        pruneCalls_length_le _ _ _
      have e4 : (rl.calls.length : Int) ≤ rl.max_calls := hmax ▸ hlen
      have hlen2 : (pruneCalls rl.time_period now₂
          (pruneCalls rl.time_period now₁ rl.calls) ++ [now₂]).length
          = (pruneCalls rl.time_period now₂
            (pruneCalls rl.time_period now₁ rl.calls)).length + 1 := by simp
      rw [hlen2, hmax]
      push_cast
      omega

/-- A cancellation while suspended preserves the state invariant. -/
theorem cancel_limiterInv (rl : AsyncRateLimiter) (t now₁ : Rat)
    (rl' : AsyncRateLimiter) (hinv : LimiterInv rl t) (h₁ : t ≤ now₁)
    (hc : rl.acquireCancelled now₁ = some rl') : LimiterInv rl' now₁ := by
  obtain ⟨hub, hsort, hne, hlen⟩ := hinv
  obtain ⟨oldest, rest, hfull, hl, hpos, hres⟩ := acquireCancelled_cases rl now₁ rl' hc
  subst hres
  simp only [LimiterInv]
  refine ⟨?_, pruneCalls_sorted _ _ hsort, ?_, ?_⟩
  · intro s hsmem
    exact le_trans (hub s (mem_pruneCalls.mp hsmem).1) h₁
  · intro _
    refine hne ?_
    intro hc'
    rw [hc'] at hl
    simp [pruneCalls] at hl
  · have := pruneCalls_length_le rl.time_period now₁ rl.calls
    omega

/-- Every reachable limiter state satisfies the invariant at the clock reading
of its last completed step. -/
theorem reachable_limiterInv (rl : AsyncRateLimiter) (t : Rat)
    (h : Reachable rl t) : LimiterInv rl t := by
  induction h with
  | init max_calls time_period rl₀ t₀ h₀ =>
    have : rl₀ = ⟨max_calls, time_period, []⟩ := (Except.ok.inj h₀).symm
    subst this
    exact ⟨by simp, List.sorted_nil, by simp, by positivity⟩
  | acquireStep rl₀ t₀ now₁ now₂ res hr h₁ h₂ hs ha ih =>
    exact acquire_limiterInv rl₀ t₀ now₁ now₂ res ih h₁ h₂ hs ha
  | cancelStep rl₀ t₀ now₁ rl' hr h₁ hc ih =>
    exact cancel_limiterInv rl₀ t₀ now₁ rl' ih h₁ hc

/-- Shape of every completed `acquire()`: the new log is a kept sublist of the
old one with exactly the admission timestamp appended; quota and window length
are untouched. -/
theorem acquire_shape (rl : AsyncRateLimiter) (now₁ now₂ : Rat) (res : AcquireResult)
    (ha : rl.acquire now₁ now₂ = some res) :
    ∃ kept, res.state.calls = kept ++ [res.admitted_at] ∧ kept.Sublist rl.calls ∧
      res.state.max_calls = rl.max_calls ∧ res.state.time_period = rl.time_period := by
  rcases acquire_cases rl now₁ now₂ res ha with
    ⟨hnotfull, hres⟩ | ⟨oldest, rest, hfull, hl, hpos, hres⟩
  · subst hres
    exact ⟨pruneCalls rl.time_period now₁ rl.calls, rfl,
      pruneCalls_sublist _ _ _, rfl, rfl⟩
  · subst hres
    exact ⟨pruneCalls rl.time_period now₂ (pruneCalls rl.time_period now₁ rl.calls),
      rfl, (pruneCalls_sublist _ _ _).trans (pruneCalls_sublist _ _ _), rfl, rfl⟩

/-- The trace of a cancellation while suspended is lock balanced: the
`async with` block releases the lock while the `CancelledError` propagates. -/
theorem acquireCancelledTrace_balanced (rl : AsyncRateLimiter) (now₁ : Rat)
    (tr : List Event) (h : rl.acquireCancelledTrace now₁ = some tr) :
    endLockDepth 0 tr = 0 := by
  unfold AsyncRateLimiter.acquireCancelledTrace at h
  by_cases hfull : rl.max_calls ≤ ((pruneCalls rl.time_period now₁ rl.calls).length : Int)
  · rw [if_pos hfull] at h
    cases hl : pruneCalls rl.time_period now₁ rl.calls with
    | nil =>
      rw [hl] at h
      simp at h
    | cons oldest rest =>
      rw [hl] at h
      simp only [List.head?_cons] at h
      by_cases hw : 0 < oldest + rl.time_period - now₁
      · rw [if_pos hw] at h
        rw [← Option.some.inj h]
        rfl
      · rw [if_neg hw] at h
        simp at h
  · rw [if_neg hfull] at h
    simp at h

/-- A freshly constructed limiter is reachable at any start instant. -/
theorem reachable_empty (max_calls : Int) (time_period : Rat) (t₀ : Rat) :
    Reachable ⟨max_calls, time_period, []⟩ t₀ :=
  Reachable.init max_calls time_period _ t₀ rfl

/-- No sleep is planned on an empty log with a positive quota. -/
theorem plannedWait_empty (max_calls : Int) (time_period now₁ : Rat)
    (h : 1 ≤ max_calls) :
    AsyncRateLimiter.plannedWait ⟨max_calls, time_period, []⟩ now₁ = none := by
  unfold AsyncRateLimiter.plannedWait
  rw [if_neg]
  simp only [pruneCalls, List.filter_nil, List.length_nil]
  omega

/-- Fact: `sleepRespected` holds vacuously when no sleep is planned. -/
theorem sleepRespected_of_none {rl : AsyncRateLimiter} {now₁ : Rat}
    (h : rl.plannedWait now₁ = none) (now₂ : Rat) : sleepRespected rl now₁ now₂ := by
  intro w hw
  rw [h] at hw
  cases hw

/-- A one-entry state left by a first admission, used as a concrete example. -/
theorem reachable_one : Reachable ⟨1, 2, [0]⟩ 0 := by
  have ha : AsyncRateLimiter.acquire ⟨1, 2, []⟩ 0 0
      = some ⟨⟨1, 2, [0]⟩, 0, none⟩ := by
    norm_num [AsyncRateLimiter.acquire, pruneCalls, List.filter_nil]
  exact Reachable.acquireStep ⟨1, 2, []⟩ 0 0 0 ⟨⟨1, 2, [0]⟩, 0, none⟩
    (reachable_empty 1 2 0) le_rfl le_rfl
    (sleepRespected_of_none (plannedWait_empty 1 2 0 le_rfl) 0) ha

/-! ## Claims -/

/-- C2, counterexample: the claim says construction fails with
`InvalidConfiguration` for `max_calls <= 0` or `time_period <= 0`; the source
constructor validates nothing, so construction succeeds at `max_calls = 0`
and even at both arguments negative, producing a fully formed limiter. -/
theorem C2_counterexample :
    AsyncRateLimiter.init 0 1 = .ok ⟨0, 1, []⟩ ∧
    AsyncRateLimiter.init (-1) (-1) = .ok ⟨-1, -1, []⟩ ∧
    (AsyncRateLimiter.init 0 1).isOk = true :=
  ⟨rfl, rfl, rfl⟩

/-- C2, amended: construction never fails. For every `max_calls` and
`time_period`, including non-positive values, `__init__` succeeds and returns
a limiter storing the arguments unchanged with an empty call log; no
`InvalidConfiguration` validation is performed. -/
theorem C2_no_validation (max_calls : Int) (time_period : Rat) :
    AsyncRateLimiter.init max_calls time_period = .ok ⟨max_calls, time_period, []⟩ :=
  rfl

/-- C3, counterexample: the claim says the caller never sleeps while holding
the lock. From state `max_calls = 1`, `time_period = 2`, `call_log = [0]` at
clock reading 1, the `acquire()` trace contains a sleep at lock depth 1: the
`await asyncio.sleep` at line 37 is inside the `async with self._lock` block. -/
theorem C3_counterexample :
    lockedSleeps 0 ((⟨1, 2, [0]⟩ : AsyncRateLimiter).acquireTrace 1 2) = 1 := by
  norm_num [AsyncRateLimiter.acquireTrace, pruneCalls, List.filter_cons,
    List.filter_nil, lockedSleeps]

/-- C3, amended: in every `acquire()` execution the lock is acquired first,
released last, and every sleep happens while the lock is held — the caller
suspends inside the critical section, never after releasing the lock. -/
theorem C3_sleep_holds_lock (rl : AsyncRateLimiter) (now₁ now₂ : Rat) :
    unlockedSleeps 0 (rl.acquireTrace now₁ now₂) = 0 ∧
    (rl.acquireTrace now₁ now₂).head? = some Event.lockAcquire ∧
    (rl.acquireTrace now₁ now₂).getLast? = some Event.lockRelease := by
  unfold AsyncRateLimiter.acquireTrace
  by_cases hfull : rl.max_calls ≤ ((pruneCalls rl.time_period now₁ rl.calls).length : Int)
  · rw [if_pos hfull]
    cases hl : pruneCalls rl.time_period now₁ rl.calls with
    | nil => exact ⟨rfl, rfl, rfl⟩
    | cons oldest rest =>
      simp only [List.head?_cons]
      by_cases hw : 0 < oldest + rl.time_period - now₁
      · rw [if_pos hw]
        exact ⟨rfl, rfl, rfl⟩
      · rw [if_neg hw]
        exact ⟨rfl, rfl, rfl⟩
  · rw [if_neg hfull]
    exact ⟨rfl, rfl, rfl⟩

/-- C6: the prune removes exactly the timestamps `<= now - time_period` and,
when every logged timestamp is in the past, keeps exactly those in
`(now - time_period, now]`; in particular, with `max_calls = 1`, a timestamp
exactly `time_period` old is pruned and a new call is admitted immediately. -/
theorem C6_prune_boundary (time_period now : Rat) (calls : List Rat)
    (hub : ∀ s ∈ calls, s ≤ now) :
    (∀ s, s ∈ pruneCalls time_period now calls ↔
      (s ∈ calls ∧ now - time_period < s ∧ s ≤ now)) ∧
    (∀ s ∈ calls, (s ∉ pruneCalls time_period now calls ↔ s ≤ now - time_period)) ∧
    AsyncRateLimiter.acquire ⟨1, time_period, [now - time_period]⟩ now now
      = some ⟨⟨1, time_period, [now]⟩, now, none⟩ := by
  refine ⟨fun s => ?_, fun s hs => ?_, ?_⟩
  · constructor
    · intro hmem
      obtain ⟨h1, h2⟩ := mem_pruneCalls.mp hmem
      exact ⟨h1, h2, hub s h1⟩
    · intro ⟨h1, h2, _⟩
      exact mem_pruneCalls.mpr ⟨h1, h2⟩
  · constructor
    · intro hnot
      by_contra hgt
      exact hnot (mem_pruneCalls.mpr ⟨hs, by linarith [lt_of_not_le hgt]⟩)
    · intro hle hmem
      have := (mem_pruneCalls.mp hmem).2
      linarith
  · norm_num [AsyncRateLimiter.acquire, pruneCalls, List.filter_cons, List.filter_nil]

/-- C6 witness at `time_period = 2`, `now = 3`, `call_log = [0, 2, 3]`. -/
theorem C6_prune_boundary_witness :
    (∀ s, s ∈ pruneCalls 2 3 [0, 2, 3] ↔
      (s ∈ [(0:Rat), 2, 3] ∧ 3 - 2 < s ∧ s ≤ 3)) ∧
    (∀ s ∈ [(0:Rat), 2, 3], (s ∉ pruneCalls 2 3 [0, 2, 3] ↔ s ≤ 3 - 2)) ∧
    AsyncRateLimiter.acquire ⟨1, 2, [3 - 2]⟩ 3 3 = some ⟨⟨1, 2, [3]⟩, 3, none⟩ :=
  C6_prune_boundary 2 3 [0, 2, 3] (by norm_num)

/-- C7: every completed `acquire()` appends exactly one timestamp — the log
after the call is a sublist of the log before it with the single admission
timestamp appended at the end, whether or not the call waited. -/
theorem C7_exactly_one_append (rl : AsyncRateLimiter) (now₁ now₂ : Rat)
    (res : AcquireResult) (ha : rl.acquire now₁ now₂ = some res) :
    ∃ kept, res.state.calls = kept ++ [res.admitted_at] ∧ kept.Sublist rl.calls := by
  obtain ⟨kept, h1, h2, _, _⟩ := acquire_shape rl now₁ now₂ res ha
  exact ⟨kept, h1, h2⟩

/-- C7 witness: a first admission at clock 0 on a fresh `max_calls = 2`,
`time_period = 1` limiter appends exactly the timestamp 0. -/
theorem C7_exactly_one_append_witness :
    ∃ kept, [(0:Rat)] = kept ++ [(0:Rat)] ∧ kept.Sublist ([] : List Rat) :=
  C7_exactly_one_append ⟨2, 1, []⟩ 0 0 ⟨⟨2, 1, [0]⟩, 0, none⟩
    (by norm_num [AsyncRateLimiter.acquire, pruneCalls, List.filter_nil])

/-- C10: with `max_calls >= 1`, whenever the full-window branch is taken the
freshly pruned log is nonempty, so reading `self.calls[0]` cannot raise; the
computed `wait_time` is strictly positive because the head survived the prune;
and the call therefore always takes the sleep path — the `wait_time <= 0`
fall-through inside the full branch never executes. -/
theorem C10_full_branch_safe (rl : AsyncRateLimiter) (now₁ now₂ : Rat)
    (hmc : 1 ≤ rl.max_calls)
    (hfull : rl.max_calls ≤ ((pruneCalls rl.time_period now₁ rl.calls).length : Int)) :
    ∃ oldest rest, pruneCalls rl.time_period now₁ rl.calls = oldest :: rest ∧
      0 < oldest + rl.time_period - now₁ ∧
      rl.acquire now₁ now₂ = some ⟨⟨rl.max_calls, rl.time_period,
        pruneCalls rl.time_period now₂ (pruneCalls rl.time_period now₁ rl.calls)
          ++ [now₂]⟩, now₂, some (oldest + rl.time_period - now₁)⟩ := by
  cases hl : pruneCalls rl.time_period now₁ rl.calls with
  | nil =>
    rw [hl] at hfull
    simp at hfull
    omega
  | cons oldest rest =>
    have hmem : oldest ∈ pruneCalls rl.time_period now₁ rl.calls := by
      rw [hl]; exact List.mem_cons_self _ _
    have hlt : now₁ - rl.time_period < oldest := (mem_pruneCalls.mp hmem).2
    have hpos : 0 < oldest + rl.time_period - now₁ := by linarith
    refine ⟨oldest, rest, rfl, hpos, ?_⟩
    unfold AsyncRateLimiter.acquire
    rw [if_pos (hl ▸ hfull), hl]
    simp only [List.head?_cons]
    rw [if_pos hpos]

/-- C10 witness at `max_calls = 1`, `time_period = 2`, `call_log = [0]`,
clock readings 1 then 2. -/
theorem C10_full_branch_safe_witness :
    ∃ oldest rest, pruneCalls 2 1 [0] = oldest :: rest ∧
      0 < oldest + 2 - 1 ∧
      AsyncRateLimiter.acquire ⟨1, 2, [0]⟩ 1 2 = some ⟨⟨1, 2,
        pruneCalls 2 2 (pruneCalls 2 1 [0]) ++ [2]⟩, 2, some (oldest + 2 - 1)⟩ := by
  obtain ⟨oldest, rest, h1, h2, h3⟩ := C10_full_branch_safe ⟨1, 2, [0]⟩ 1 2 le_rfl
    (by norm_num [pruneCalls, List.filter_cons, List.filter_nil])
  exact ⟨oldest, rest, h1, h2, h3⟩

/-- C1: after any completed `acquire()` call returns, from any reachable state
and for any number of serialised callers, the number of timestamps of
`call_log` lying in the trailing window of length `time_period` ending at the
return instant is at most `max_calls`. -/
theorem C1_window_invariant (rl : AsyncRateLimiter) (t now₁ now₂ : Rat)
    (res : AcquireResult) (hr : Reachable rl t) (h₁ : t ≤ now₁) (h₂ : now₁ ≤ now₂)
    (hs : sleepRespected rl now₁ now₂) (ha : rl.acquire now₁ now₂ = some res) :
    (windowCount res.state res.admitted_at : Int) ≤ res.state.max_calls := by
  have hreach : Reachable res.state res.admitted_at :=
    Reachable.acquireStep rl t now₁ now₂ res hr h₁ h₂ hs ha
  obtain ⟨hub, hsort, hne, hlen⟩ := reachable_limiterInv _ _ hreach
  obtain ⟨kept, hshape, _, _, _⟩ := acquire_shape rl now₁ now₂ res ha
  have hne' : res.state.calls ≠ [] := by
    rw [hshape]; simp
  have hmc : 1 ≤ res.state.max_calls := hne hne'
  have hmax : max res.state.max_calls 0 = res.state.max_calls :=
    max_eq_left (le_trans zero_le_one hmc)
  have hwc : windowCount res.state res.admitted_at ≤ res.state.calls.length := by
    unfold windowCount
    exact List.length_filter_le _ _
  rw [hmax] at hlen
  omega

/-- C1 witness: a first admission on a fresh `max_calls = 1`,
`time_period = 2` limiter leaves one timestamp in the window. -/
theorem C1_window_invariant_witness :
    (windowCount ⟨1, 2, [0]⟩ 0 : Int) ≤ 1 :=
  C1_window_invariant ⟨1, 2, []⟩ 0 0 0 ⟨⟨1, 2, [0]⟩, 0, none⟩
    (reachable_empty 1 2 0) le_rfl le_rfl
    (sleepRespected_of_none (plannedWait_empty 1 2 0 le_rfl) 0)
    (by norm_num [AsyncRateLimiter.acquire, pruneCalls, List.filter_nil])

/-- C4, counterexample: the claim says a waiting call re-runs the full
algorithm in a loop, re-checking `len(call_log) < max_calls` before appending.
From state `max_calls = 1`, `time_period = 4`, `call_log = [0, 2]` at clock 3,
the call sleeps once (`wait_time = 1`), wakes at 4, and appends even though
the re-pruned log still has `len = 1 >= max_calls = 1`; the resulting window
at the return instant holds two timestamps, which the claimed re-check loop
would have prevented. -/
theorem C4_counterexample :
    (⟨1, 4, [0, 2]⟩ : AsyncRateLimiter).acquire 3 4
      = some ⟨⟨1, 4, [2, 4]⟩, 4, some 1⟩ ∧
    ¬ ((pruneCalls 4 4 (pruneCalls 4 3 [0, 2])).length : Int) < 1 ∧
    windowCount ⟨1, 4, [2, 4]⟩ 4 = 2 := by
  norm_num [AsyncRateLimiter.acquire, pruneCalls, windowCount,
    List.filter_cons, List.filter_nil]

/-- C4, amended: a call that sleeps does so exactly once, then re-reads the
clock, re-prunes once, and appends unconditionally — there is no loop and the
limit `len(call_log) < max_calls` is not re-checked after waking. -/
theorem C4_single_sleep_no_recheck (rl : AsyncRateLimiter) (now₁ now₂ w : Rat)
    (hw : rl.plannedWait now₁ = some w) :
    rl.acquire now₁ now₂ = some ⟨⟨rl.max_calls, rl.time_period,
      pruneCalls rl.time_period now₂ (pruneCalls rl.time_period now₁ rl.calls)
        ++ [now₂]⟩, now₂, some w⟩ := by
  unfold AsyncRateLimiter.plannedWait at hw
  unfold AsyncRateLimiter.acquire
  by_cases hfull : rl.max_calls ≤ ((pruneCalls rl.time_period now₁ rl.calls).length : Int)
  · rw [if_pos hfull] at hw ⊢
    cases hl : pruneCalls rl.time_period now₁ rl.calls with
    | nil =>
      rw [hl] at hw
      simp at hw
    | cons oldest rest =>
      rw [hl] at hw
      simp only [List.head?_cons] at hw ⊢
      by_cases hpos : 0 < oldest + rl.time_period - now₁
      · rw [if_pos hpos] at hw ⊢
        rw [Option.some.inj hw]
      · rw [if_neg hpos] at hw
        simp at hw
  · rw [if_neg hfull] at hw
    simp at hw

/-- C4 amended witness at `max_calls = 1`, `time_period = 4`,
`call_log = [0, 2]`, clock readings 3 then 4. -/
theorem C4_single_sleep_no_recheck_witness :
    (⟨1, 4, [0, 2]⟩ : AsyncRateLimiter).acquire 3 4 = some ⟨⟨1, 4,
      pruneCalls 4 4 (pruneCalls 4 3 [0, 2]) ++ [4]⟩, 4, some 1⟩ :=
  C4_single_sleep_no_recheck ⟨1, 4, [0, 2]⟩ 3 4 1
    (by norm_num [AsyncRateLimiter.plannedWait, pruneCalls,
      List.filter_cons, List.filter_nil])

/-- C5: from any reachable state, when the full branch reads
`call_log[0] = oldest`, the computed suspension duration is exactly
`oldest + time_period - now`; `oldest` really is the oldest (minimal)
timestamp of the pruned log; the sleep deadline `now + wait_time` is exactly
the instant `oldest + time_period` at which the oldest admitted call exits
the window; and any completed call from here sleeps exactly that long. -/
theorem C5_wait_until_oldest_expires (rl : AsyncRateLimiter) (t now₁ : Rat)
    (oldest : Rat) (hr : Reachable rl t) (h₁ : t ≤ now₁)
    (hfull : rl.max_calls ≤ ((pruneCalls rl.time_period now₁ rl.calls).length : Int))
    (hhead : (pruneCalls rl.time_period now₁ rl.calls).head? = some oldest) :
    rl.plannedWait now₁ = some (oldest + rl.time_period - now₁) ∧
    (∀ s ∈ pruneCalls rl.time_period now₁ rl.calls, oldest ≤ s) ∧
    now₁ + (oldest + rl.time_period - now₁) = oldest + rl.time_period ∧
    (∀ now₂ res, rl.acquire now₁ now₂ = some res →
      res.slept = some (oldest + rl.time_period - now₁)) := by
  obtain ⟨hub, hsort, hne, hlen⟩ := reachable_limiterInv _ _ hr
  obtain ⟨rest, hl⟩ : ∃ rest,
      pruneCalls rl.time_period now₁ rl.calls = oldest :: rest := by
    cases hl : pruneCalls rl.time_period now₁ rl.calls with
    | nil =>
      rw [hl] at hhead
      simp at hhead
    | cons a l =>
      rw [hl] at hhead
      simp only [List.head?_cons, Option.some.injEq] at hhead
      exact ⟨l, by rw [hhead]⟩
  refine ⟨plannedWait_some rl now₁ oldest rest hfull hl, ?_, by ring, ?_⟩
  · intro s hsmem
    rw [hl] at hsmem
    rcases List.mem_cons.mp hsmem with h | h
    · exact le_of_eq h.symm
    · exact List.rel_of_sorted_cons (hl ▸ pruneCalls_sorted _ _ hsort) s h
  · intro now₂ res hares
    rcases acquire_cases rl now₁ now₂ res hares with
      ⟨hnot, _⟩ | ⟨o', r', _, hl', hpos', hres⟩
    · exact absurd hfull hnot
    · subst hres
      rw [hl] at hl'
      have ho : oldest = o' := (List.cons.inj hl').1
      rw [ho]

/-- C5 witness: from the reachable state `max_calls = 1`, `time_period = 2`,
`call_log = [0]` at clock 1, the wait is `0 + 2 - 1 = 1` and any completed
call sleeps exactly 1. -/
theorem C5_wait_until_oldest_expires_witness :
    AsyncRateLimiter.plannedWait ⟨1, 2, [0]⟩ 1 = some (0 + 2 - 1) ∧
    (∀ s ∈ pruneCalls 2 1 [0], (0:Rat) ≤ s) ∧
    (1:Rat) + (0 + 2 - 1) = 0 + 2 ∧
    (∀ now₂ res, (⟨1, 2, [0]⟩ : AsyncRateLimiter).acquire 1 now₂ = some res →
      res.slept = some (0 + 2 - 1)) :=
  C5_wait_until_oldest_expires ⟨1, 2, [0]⟩ 0 1 0 reachable_one (by norm_num)
    (by norm_num [pruneCalls, List.filter_cons, List.filter_nil])
    (by norm_num [pruneCalls, List.filter_cons, List.filter_nil])

/-- C8: from any reachable state, a caller cancelled while suspended in
`acquire()` leaves the limiter state literally identical to the state before
its call — no timestamp is recorded (pruning removed nothing, because the
sleep branch from a reachable state means the window was exactly full) — and
the cancellation trace is lock balanced, so the caller does not keep the
lock. -/
theorem C8_cancellation_noop (rl : AsyncRateLimiter) (t now₁ : Rat)
    (rl' : AsyncRateLimiter) (hr : Reachable rl t) (h₁ : t ≤ now₁)
    (hc : rl.acquireCancelled now₁ = some rl') :
    rl' = rl ∧
    (∀ tr, rl.acquireCancelledTrace now₁ = some tr → endLockDepth 0 tr = 0) := by
  obtain ⟨hub, hsort, hne, hlen⟩ := reachable_limiterInv _ _ hr
  obtain ⟨oldest, rest, hfull, hl, hpos, hres⟩ := acquireCancelled_cases rl now₁ rl' hc
  subst hres
  refine ⟨?_, fun tr htr => acquireCancelledTrace_balanced rl now₁ tr htr⟩
  have hne' : rl.calls ≠ [] := by
    intro hc'
    rw [hc'] at hl
    simp [pruneCalls] at hl
  have hmc : 1 ≤ rl.max_calls := hne hne'
  have hmax : max rl.max_calls 0 = rl.max_calls :=
    max_eq_left (le_trans zero_le_one hmc)
  rw [hmax] at hlen
  have hple : (pruneCalls rl.time_period now₁ rl.calls).length ≤ rl.calls.length :=
    pruneCalls_length_le _ _ _
  have heqlen : (pruneCalls rl.time_period now₁ rl.calls).length
      = rl.calls.length := by omega
  rw [pruneCalls_eq_of_length heqlen]

/-- C8 witness: cancelling a waiter on the reachable state `max_calls = 1`,
`time_period = 2`, `call_log = [0]` at clock 1 leaves the state unchanged and
the lock free. -/
theorem C8_cancellation_noop_witness :
    (⟨1, 2, [0]⟩ : AsyncRateLimiter) = ⟨1, 2, [0]⟩ ∧
    (∀ tr, (⟨1, 2, [0]⟩ : AsyncRateLimiter).acquireCancelledTrace 1 = some tr →
      endLockDepth 0 tr = 0) :=
  C8_cancellation_noop ⟨1, 2, [0]⟩ 0 1 ⟨1, 2, [0]⟩ reachable_one (by norm_num)
    (by norm_num [AsyncRateLimiter.acquireCancelled, pruneCalls,
      List.filter_cons, List.filter_nil])

/-- C9: with `max_calls = 1`, two successive completed `acquire()` calls are
separated by at least `time_period` between their admission timestamps: the
limiter degenerates to mutual exclusion with a cooldown of `time_period`. -/
theorem C9_cooldown (rl : AsyncRateLimiter) (t now₁ now₂ m₁ m₂ : Rat)
    (res res' : AcquireResult) (hmc : rl.max_calls = 1)
    (hr : Reachable rl t) (h₁ : t ≤ now₁) (h₂ : now₁ ≤ now₂)
    (hs : sleepRespected rl now₁ now₂) (ha : rl.acquire now₁ now₂ = some res)
    (h₁' : res.admitted_at ≤ m₁) (h₂' : m₁ ≤ m₂)
    (hs' : sleepRespected res.state m₁ m₂)
    (ha' : res.state.acquire m₁ m₂ = some res') :
    res.admitted_at + rl.time_period ≤ res'.admitted_at := by
  have hreach : Reachable res.state res.admitted_at :=
    Reachable.acquireStep rl t now₁ now₂ res hr h₁ h₂ hs ha
  obtain ⟨hub, hsort, hne, hlen⟩ := reachable_limiterInv _ _ hreach
  obtain ⟨kept, hshape, hsub, hmc', htp'⟩ := acquire_shape rl now₁ now₂ res ha
  have hmax : max res.state.max_calls 0 = res.state.max_calls := by
    rw [hmc', hmc]
    rfl
  have hlength : res.state.calls.length = kept.length + 1 := by
    rw [hshape]; simp
  rw [hmax, hmc', hmc] at hlen
  have hkept : kept = [] := by
    have hk : kept.length = 0 := by omega
    exact List.eq_nil_of_length_eq_zero hk
  have hcalls : res.state.calls = [res.admitted_at] := by
    rw [hshape, hkept]
    rfl
  by_cases hcase : m₁ - res.state.time_period < res.admitted_at
  · have hprune : pruneCalls res.state.time_period m₁ res.state.calls
        = [res.admitted_at] := by
      rw [hcalls]
      simp [pruneCalls, List.filter_cons, List.filter_nil, hcase]
    have hfull' : res.state.max_calls
        ≤ ((pruneCalls res.state.time_period m₁ res.state.calls).length : Int) := by
      rw [hprune, hmc', hmc]
      norm_num
    have hw' : res.state.plannedWait m₁
        = some (res.admitted_at + res.state.time_period - m₁) :=
      plannedWait_some res.state m₁ res.admitted_at [] hfull' hprune
    have hsleep : m₁ + (res.admitted_at + res.state.time_period - m₁) ≤ m₂ :=
      hs' _ hw'
    rcases acquire_cases res.state m₁ m₂ res' ha' with
      ⟨hnot, _⟩ | ⟨o', r', _, hl', hpos', hres'⟩
    · exact absurd hfull' hnot
    · subst hres'
      dsimp only
      rw [← htp']
      linarith
  · have hprune : pruneCalls res.state.time_period m₁ res.state.calls = [] := by
      rw [hcalls]
      simp [pruneCalls, List.filter_cons, List.filter_nil, hcase]
    rcases acquire_cases res.state m₁ m₂ res' ha' with
      ⟨hnot, hres'⟩ | ⟨o', r', _, hl', _, _⟩
    · subst hres'
      dsimp only
      have hexp : res.admitted_at ≤ m₁ - res.state.time_period := le_of_not_lt hcase
      rw [← htp']
      linarith
    · rw [hprune] at hl'
      simp at hl'

/-- C9 witness: `max_calls = 1`, `time_period = 2`; first admission at 0,
second call arrives at 1, sleeps 1, admitted at 2 — separation 2 >= 2. -/
theorem C9_cooldown_witness :
    (⟨⟨1, 2, [0]⟩, 0, none⟩ : AcquireResult).admitted_at + (2:Rat)
      ≤ (⟨⟨1, 2, [2]⟩, 2, some 1⟩ : AcquireResult).admitted_at :=
  C9_cooldown ⟨1, 2, []⟩ 0 0 0 1 2 ⟨⟨1, 2, [0]⟩, 0, none⟩ ⟨⟨1, 2, [2]⟩, 2, some 1⟩
    rfl (reachable_empty 1 2 0) le_rfl le_rfl
    (sleepRespected_of_none (plannedWait_empty 1 2 0 le_rfl) 0)
    (by norm_num [AsyncRateLimiter.acquire, pruneCalls, List.filter_nil])
    (by norm_num) (by norm_num)
    (by
      intro w hw
      rw [show AsyncRateLimiter.plannedWait ⟨1, 2, [0]⟩ 1 = some 1 from by
        norm_num [AsyncRateLimiter.plannedWait, pruneCalls,
          List.filter_cons, List.filter_nil]] at hw
      have hw1 : (1:Rat) = w := Option.some.inj hw
      rw [← hw1]
      norm_num)
    (by norm_num [AsyncRateLimiter.acquire, pruneCalls,
      List.filter_cons, List.filter_nil])
